import Mathlib

/-!
Verification of the asttab dump-text parser, expression formatter and
round-trip facade (src/asttab/main.py).

The embedding works on `List Char` with an explicit cursor position, mirroring
`ASTParser`'s `self.text` / `self.pos`.  The mutually recursive parsing
methods are embedded with an explicit fuel parameter (every call consumes one
unit); `Err.fuel` is an artifact of the embedding and is shown unreachable
for sufficient fuel in the adequacy theorem below.
-/

namespace Asttab

abbrev Text := List Char

/-- Errors raised by the parser.  `eof` is `ValueError("Unexpected end of
input")`, `expectedNode` is `ValueError(f"Expected AST node at pos ...")`,
`expected s p` is the `AssertionError` raised by `ASTParser.eat`,
`unterminated` is `ValueError("Unterminated string")`, `unknownAtom` is
`ValueError(f"Unknown atom: ...")`, `badQuote` is the `assert quote in ...`
of `parse_string`, and `fuel` is the embedding's fuel-exhaustion artifact. -/
inductive Err
  | eof
  | expectedNode (p : Nat)
  | expected (s : String) (p : Nat)
  | unterminated
  | unknownAtom (a : String)
  | badQuote (p : Nat)
  | fuel
deriving DecidableEq, Repr

instance {e a : Type} [DecidableEq e] [DecidableEq a] : DecidableEq (Except e a)
  | .ok x, .ok y =>
    if h : x = y then .isTrue (by rw [h]) else .isFalse (fun hh => h (Except.ok.inj hh))
  | .ok _, .error _ => .isFalse (fun hh => Except.noConfusion hh)
  | .error _, .ok _ => .isFalse (fun hh => Except.noConfusion hh)
  | .error x, .error y =>
    if h : x = y then .isTrue (by rw [h]) else .isFalse (fun hh => h (Except.error.inj hh))

/-- Character class of `node_re = re.compile(r"([A-Za-z0-9_]+)\(")` and of the
name group of `field_re`: ASCII letters, digits and underscore. -/
def isNameChar (c : Char) : Bool := c.isAlpha || c.isDigit || c = '_'

/-- Character class of the field-name group of
`field_re = re.compile(r"([A-Za-z_]+)=")`: ASCII letters and underscore. -/
def isFieldChar (c : Char) : Bool := c.isAlpha || c = '_'

/-- Character class consumed by `parse_atom`: `[A-Za-z0-9_.+-]`. -/
def isAtomChar (c : Char) : Bool :=
  c.isAlpha || c.isDigit || c = '_' || c = '.' || c = '+' || c = '-'

/-- Number of leading whitespace characters, the loop of
`skip_ws` (`while self.peek().isspace(): self.pos += 1`). -/
def countWs : List Char → Nat
  | [] => 0
  | c :: cs => if c.isWhitespace then countWs cs + 1 else 0

/-- Cursor after `ASTParser.skip_ws` starting at position `p`. -/
def skip_ws (t : Text) (p : Nat) : Nat := p + countWs (t.drop p)

/-- Embeds `ASTParser.eat(s)`: `assert self.text.startswith(s, self.pos)`,
then advance by `len(s)`; the failed assertion is the `expected` error. -/
def eat (t : Text) (p : Nat) (s : String) : Except Err Nat :=
  if (t.drop p).take s.length = s.toList then .ok (p + s.length)
  else .error (.expected s p)

/-- Embeds `node_re.match(self.text, self.pos)`: the greedy group
`([A-Za-z0-9_]+)` is the maximal run of name characters at `p` (regex
backtracking cannot produce a shorter match, since any shorter prefix is
followed by another name character, never by `(`); it must be non-empty and
immediately followed by `(`.  Returns the name and `m.end()`. -/
def node_match (t : Text) (p : Nat) : Option (String × Nat) :=
  let run := (t.drop p).takeWhile isNameChar
  if run ≠ [] ∧ t.get? (p + run.length) = some '(' then
    some (run.asString, p + run.length + 1)
  else none

/-- Embeds `field_re.match(self.text, self.pos)`: maximal run of
`[A-Za-z_]` at `p`, non-empty, immediately followed by `=`. -/
def field_match (t : Text) (p : Nat) : Option (String × Nat) :=
  let run := (t.drop p).takeWhile isFieldChar
  if run ≠ [] ∧ t.get? (p + run.length) = some '=' then
    some (run.asString, p + run.length + 1)
  else none

/-- Scan of the `parse_string` loop: characters strictly before the first
occurrence of the closing quote `q`; `none` when the quote never occurs
(the `Unterminated string` case). -/
def scanStr : List Char → Char → Option (List Char)
  | [], _ => none
  | c :: cs, q => if c = q then some [] else (scanStr cs q).map (c :: ·)

/-- Modelled from the spec: the external target-language facility's standard
string-literal rendering (Python's `repr` on `str`, used by `parse_string`
line 168 and by the external dump facility): single-quote delimiters unless
the string contains a single quote and no double quote; backslashes, the
delimiting quote and the control characters newline/tab/carriage-return are
escaped; remaining (printable) characters are rendered verbatim. -/
def pyReprQuote (s : List Char) : Char :=
  if '\'' ∈ s ∧ '"' ∉ s then '"' else '\''

def pyReprEscape (q : Char) (c : Char) : List Char :=
  if c = '\\' then ['\\', '\\']
  else if c = q then ['\\', q]
  else if c = '\n' then ['\\', 'n']
  else if c = '\r' then ['\\', 'r']
  else if c = '\t' then ['\\', 't']
  else [c]

def pyRepr (s : String) : String :=
  let q := pyReprQuote s.toList
  (q :: (s.toList.flatMap (pyReprEscape q) ++ [q])).asString

/-- Embeds `ASTParser.parse_string` (main.py lines 157-168): record the quote
character, scan raw characters (no escape processing) until the first
occurrence of the same quote, and return `repr` of that raw content together
with the position one past the closing quote. -/
def parse_string (t : Text) (p : Nat) : Except Err (String × Nat) :=
  match t.get? p with
  | some q =>
    if q = '\'' ∨ q = '"' then
      match scanStr (t.drop (p + 1)) q with
      | some content => .ok (pyRepr content.asString, p + 1 + content.length + 1)
      | none => .error .unterminated
    else .error (.badQuote p)
  | none => .error (.badQuote p)

/-- Embeds the `re.fullmatch(r"[+-]?\d+", atom)` test of `parse_atom`:
an optional sign followed by a non-empty run of digits (the lexeme only
contains ASCII, so `\d` is `[0-9]`). -/
def isIntLit : List Char → Bool
  | [] => false
  | c :: cs =>
    if c = '+' ∨ c = '-' then decide (cs ≠ []) && cs.all Char.isDigit
    else (c :: cs).all Char.isDigit

/-- Embeds `ASTParser.parse_atom` (main.py lines 170-187): greedily consume
the maximal run of `[A-Za-z0-9_.+-]` (the `while self.peek() and
re.match(...)` loop is exactly `takeWhile`), return the lexeme unchanged if
it is `True`/`False`/`None` or an integer literal, otherwise raise
`Unknown atom`. -/
def parse_atom (t : Text) (p : Nat) : Except Err (String × Nat) :=
  let run := (t.drop p).takeWhile isAtomChar
  let atom := run.asString
  if atom = "True" ∨ atom = "False" ∨ atom = "None" then .ok (atom, p + run.length)
  else if isIntLit run then .ok (atom, p + run.length)
  else .error (.unknownAtom atom)

/-- Python `", ".join` / `str.join`. -/
def joinSep (sep : String) : List String → String
  | [] => ""
  | [x] => x
  | x :: y :: xs => x ++ sep ++ joinSep sep (y :: xs)

mutual

/-- Embeds `ASTParser.parse_value` (main.py lines 50-76): skip whitespace,
fail on end of input, then dispatch: `node_re` match selects the node
production, `[` the list, `(` the tuple, a quote the string, anything else
the atom. -/
def parse_value : Nat → Text → Nat → Except Err (String × Nat)
  | 0, _, _ => .error .fuel
  | f + 1, t, p =>
    match t.get? (skip_ws t p) with
    | none => .error .eof
    | some ch =>
      match node_match t (skip_ws t p) with
      | some _ => parse_node f t (skip_ws t p)
      | none =>
        if ch = '[' then parse_list f t (skip_ws t p)
        else if ch = '(' then parse_tuple f t (skip_ws t p)
        else if ch = '\'' ∨ ch = '"' then parse_string t (skip_ws t p)
        else parse_atom t (skip_ws t p)
termination_by structural f t p => f

/-- Embeds `ASTParser.parse_node` (main.py lines 78-119): read the node name
and `(`, run the field loop, then `eat(")")` and emit
`ast.Name(field=value, ...)`. -/
def parse_node : Nat → Text → Nat → Except Err (String × Nat)
  | 0, _, _ => .error .fuel
  | f + 1, t, p =>
    match node_match t p with
    | none => .error (.expectedNode p)
    | some (name, p1) =>
      match parse_fields f t p1 with
      | .error e => .error e
      | .ok (args, p2) =>
        match eat t p2 ")" with
        | .error e => .error e
        | .ok p3 => .ok ("ast." ++ name ++ "(" ++ joinSep ", " args ++ ")", p3)
termination_by structural f t p => f

/-- Embeds the `while True` field loop of `parse_node` (main.py lines
96-116): skip whitespace; stop before `)`; stop silently when no field
pattern matches; otherwise read `field=`, a value, and continue after a
comma or stop.  Returns the accumulated `field=value` strings and the
cursor at which the loop stopped. -/
def parse_fields : Nat → Text → Nat → Except Err (List String × Nat)
  | 0, _, _ => .error .fuel
  | f + 1, t, p =>
    if t.get? (skip_ws t p) = some ')' then .ok ([], skip_ws t p)
    else
      match field_match t (skip_ws t p) with
      | none => .ok ([], skip_ws t p)
      | some (field, p1) =>
        match parse_value f t p1 with
        | .error e => .error e
        | .ok (v, p2) =>
          if t.get? (skip_ws t p2) = some ',' then
            match parse_fields f t (skip_ws t p2 + 1) with
            | .error e => .error e
            | .ok (rest, p4) => .ok ((field ++ "=" ++ v) :: rest, p4)
          else .ok ([field ++ "=" ++ v], skip_ws t p2)
termination_by structural f t p => f

/-- Embeds `ASTParser.parse_list` (main.py lines 121-136). -/
def parse_list : Nat → Text → Nat → Except Err (String × Nat)
  | 0, _, _ => .error .fuel
  | f + 1, t, p =>
    match eat t p "[" with
    | .error e => .error e
    | .ok p1 =>
      match parse_list_items f t p1 with
      | .error e => .error e
      | .ok (items, p2) =>
        match eat t p2 "]" with
        | .error e => .error e
        | .ok p3 => .ok ("[" ++ joinSep ", " items ++ "]", p3)
termination_by structural f t p => f

/-- Embeds the item loop of `parse_list` (main.py lines 124-134). -/
def parse_list_items : Nat → Text → Nat → Except Err (List String × Nat)
  | 0, _, _ => .error .fuel
  | f + 1, t, p =>
    if t.get? (skip_ws t p) = some ']' then .ok ([], skip_ws t p)
    else
      match parse_value f t (skip_ws t p) with
      | .error e => .error e
      | .ok (v, p2) =>
        if t.get? (skip_ws t p2) = some ',' then
          match parse_list_items f t (skip_ws t p2 + 1) with
          | .error e => .error e
          | .ok (rest, p4) => .ok (v :: rest, p4)
        else .ok ([v], skip_ws t p2)
termination_by structural f t p => f

/-- Embeds `ASTParser.parse_tuple` (main.py lines 138-155), including the
single-element trailing-comma rule. -/
def parse_tuple : Nat → Text → Nat → Except Err (String × Nat)
  | 0, _, _ => .error .fuel
  | f + 1, t, p =>
    match eat t p "(" with
    | .error e => .error e
    | .ok p1 =>
      match parse_tuple_items f t p1 with
      | .error e => .error e
      | .ok (items, p2) =>
        match eat t p2 ")" with
        | .error e => .error e
        | .ok p3 =>
          if items.length = 1 then
            .ok ("(" ++ joinSep ", " items ++ ",)", p3)
          else
            .ok ("(" ++ joinSep ", " items ++ ")", p3)
termination_by structural f t p => f

/-- Embeds the item loop of `parse_tuple` (main.py lines 141-151). -/
def parse_tuple_items : Nat → Text → Nat → Except Err (List String × Nat)
  | 0, _, _ => .error .fuel
  | f + 1, t, p =>
    if t.get? (skip_ws t p) = some ')' then .ok ([], skip_ws t p)
    else
      match parse_value f t (skip_ws t p) with
      | .error e => .error e
      | .ok (v, p2) =>
        if t.get? (skip_ws t p2) = some ',' then
          match parse_tuple_items f t (skip_ws t p2 + 1) with
          | .error e => .error e
          | .ok (rest, p4) => .ok (v :: rest, p4)
        else .ok ([v], skip_ws t p2)
termination_by structural f t p => f

end

/-- Embeds `ASTParser.parse` with `pretty=False` (main.py lines 189-194):
return the builder code of `parse_value()`, with no end-of-input check.
The fuel `3 * length + 3` is sufficient by the adequacy theorem below. -/
def ASTParser.parse (text : String) : Except Err String :=
  match parse_value (3 * text.length + 3) text.toList 0 with
  | .ok (code, _) => .ok code
  | .error e => .error e

/-! The expression formatter `_ExprFormatter` (main.py lines 271-335). -/

/-- Constant payloads carried by the expression tree; `reprConst` is
`repr(node.value)` of `_format_Constant`. -/
inductive PyConst
  | str (s : String)
  | int (n : Int)
  | bool (b : Bool)
  | pynone
deriving DecidableEq

def reprConst : PyConst → String
  | .str s => pyRepr s
  | .int n => toString n
  | .bool b => if b then "True" else "False"
  | .pynone => "None"

/-- Expression tree consumed by `_ExprFormatter`: the `ast` node kinds for
which a `_format_...` method exists (`Name`, `Attribute`, `Constant`,
`List`, `Tuple`, `Dict`, `Call`); any other kind raises `TypeError` and is
outside this type. -/
inductive PyExpr
  | name (id : String)
  | attr (value : PyExpr) (a : String)
  | const (value : PyConst)
  | list (elts : List PyExpr)
  | tuple (elts : List PyExpr)
  | dict (keys : List (Option PyExpr)) (values : List PyExpr)
  | call (func : PyExpr) (args : List PyExpr) (keywords : List (Option String × PyExpr))

/-- Python string repetition `s * n` used for `self.indent * level`. -/
def strRepeat (s : String) (n : Nat) : String :=
  match n with
  | 0 => ""
  | n + 1 => s ++ strRepeat s n

/-- Embeds `_ExprFormatter._newline_join` (main.py lines 283-286). -/
def newline_join (ind : String) (parts : List String) (level : Nat) : String :=
  let inner := strRepeat ind (level + 1)
  let outer := strRepeat ind level
  "\n" ++ inner ++ joinSep ("," ++ "\n" ++ inner) parts ++ "," ++ "\n" ++ outer

mutual

/-- Embeds `_ExprFormatter.format` and the `_format_...` methods
(main.py lines 277-335). -/
def fmt : String → PyExpr → Nat → String
  | _, .name id, _ => id
  | ind, .attr v a, l => fmt ind v l ++ "." ++ a
  | _, .const c, _ => reprConst c
  | ind, .list es, l =>
    if es.isEmpty then "[]"
    else "[" ++ newline_join ind (fmtList ind es (l + 1)) l ++ "]"
  | ind, .tuple es, l =>
    if es.isEmpty then "()"
    else "(" ++ newline_join ind (fmtList ind es (l + 1)) l ++ ")"
  | ind, .dict ks vs, l =>
    if ks.isEmpty then "\x7b\x7d"
    else "\x7b" ++ newline_join ind (fmtPairs ind ks vs (l + 1)) l ++ "\x7d"
  | ind, .call f args kws, l =>
    let funcStr := fmt ind f l
    let parts := fmtList ind args (l + 1) ++ fmtKws ind kws (l + 1)
    if parts.isEmpty then funcStr ++ "()"
    else funcStr ++ "(" ++ newline_join ind parts l ++ ")"
termination_by ind e l => sizeOf e

/-- Renders the elements of a `List`/`Tuple`/`Call`-argument list,
each via `self.format(elt, level + 1)` (the `level + 1` is applied at the
call sites, matching the source). -/
def fmtList : String → List PyExpr → Nat → List String
  | _, [], _ => []
  | ind, e :: es, l => fmt ind e l :: fmtList ind es l
termination_by ind es l => sizeOf es

/-- Renders `_format_Dict`'s `zip(node.keys, node.values, strict=False)`
pairs as `key: value`; a `None` key renders as the literal `None`;
truncates at the shorter list like `zip`. -/
def fmtPairs : String → List (Option PyExpr) → List PyExpr → Nat → List String
  | _, [], _, _ => []
  | _, _ :: _, [], _ => []
  | ind, k :: ks, v :: vs, l =>
    ((match k with | none => "None" | some ke => fmt ind ke l) ++ ": " ++ fmt ind v l)
      :: fmtPairs ind ks vs l
termination_by ind ks vs l => sizeOf ks + sizeOf vs

/-- Renders `_format_Call`'s keyword arguments: `**value` for a `None`
argument name, `name=value` otherwise. -/
def fmtKws : String → List (Option String × PyExpr) → Nat → List String
  | _, [], _ => []
  | ind, (none, v) :: kws, l => ("**" ++ fmt ind v l) :: fmtKws ind kws l
  | ind, (some a, v) :: kws, l => (a ++ "=" ++ fmt ind v l) :: fmtKws ind kws l
termination_by ind kws l => sizeOf kws

end

/-! The `back` facade (main.py lines 223-268). -/

/-- Statements of an evaluated module's body, as far as `back` inspects
them: `ast.FunctionDef` and `ast.AsyncFunctionDef` carry their `name`;
everything else is `otherStmt`. -/
inductive PyStmt
  | functionDef (name : String)
  | asyncFunctionDef (name : String)
  | otherStmt
deriving DecidableEq

/-- Result of the external evaluator on the builder code, as far as `back`
inspects it: an `ast.Module` with its body, some other `ast.AST`, or a
non-AST value. -/
inductive BuiltVal
  | module (body : List PyStmt)
  | nonModuleAst
  | nonAst
deriving DecidableEq

/-- Errors of the `back` facade after evaluation: `notAnAst` is the
`TypeError`, `notAModule` and `wrongFunctionCount` the two `ValueError`s of
the callable path, `callableNotFound` the final `ValueError`. -/
inductive BackErr
  | notAnAst
  | notAModule
  | wrongFunctionCount
  | callableNotFound
deriving DecidableEq

/-- Embeds the `func_defs` list comprehension of `back` (main.py lines
247-251): names of the `FunctionDef`/`AsyncFunctionDef` children, in order. -/
def func_defs : List PyStmt → List String
  | [] => []
  | .functionDef n :: rest => n :: func_defs rest
  | .asyncFunctionDef n :: rest => n :: func_defs rest
  | .otherStmt :: rest => func_defs rest

/-- Modelled from the spec: `compile_and_execute` "populates `namespace`
with defined symbols" — executing the module binds each function
definition's name to a callable of that name, and `namespace.get(name)`
retrieves it; a callable is represented here by its name. -/
def exec_namespace_get (body : List PyStmt) (name : String) : Option String :=
  if name ∈ func_defs body then some name else none

/-- Embeds `back(builder_code, return_callable=True)` (main.py lines
235-268) from the point where the external evaluator has produced
`built_ast`: reject non-AST values and non-`Module` ASTs, require exactly
one function definition in the body, then execute and return the single
defined callable. -/
def back_callable (built : BuiltVal) : Except BackErr String :=
  match built with
  | .nonAst => .error .notAnAst
  | .nonModuleAst => .error .notAModule
  | .module body =>
    match func_defs body with
    | [n] =>
      match exec_namespace_get body n with
      | some f => .ok f
      | none => .error .callableNotFound
    | _ => .error .wrongFunctionCount

/-! Round-trip models for the string-constant fragment (claim C1). -/

/-- String-constant tree node: the fragment of the external tree type on
which the round-trip property is decided. -/
inductive STree
  | strConst (s : String)
deriving DecidableEq

/-- Modelled from the spec: `dump_tree_to_text` renders a string constant
node as `Constant(value=<repr of the string>)` (the canonical dump of
`ast.Constant`). -/
def dumpTree : STree → String
  | .strConst s => "Constant(value=" ++ pyRepr s ++ ")"

/-- Source characters of a string literal up to its closing quote, keeping
backslash-escape pairs intact. -/
def litScan : List Char → Char → Option (List Char)
  | [], _ => none
  | c :: rest, q =>
    if c = q then some []
    else if c = '\\' then
      match rest with
      | [] => none
      | e :: rest2 => (litScan rest2 q).map (fun tail => '\\' :: e :: tail)
    else (litScan rest q).map (c :: ·)

/-- Modelled from the spec: escape processing performed by the external
evaluator on a string literal's source characters. -/
def unescape : List Char → List Char
  | [] => []
  | '\\' :: c :: rest =>
    (if c = 'n' then ['\n'] else if c = 't' then ['\t'] else if c = 'r' then ['\r']
     else if c = '\\' then ['\\'] else if c = '\'' then ['\'']
     else if c = '"' then ['"'] else ['\\', c]) ++ unescape rest
  | c :: rest => c :: unescape rest

/-- Modelled from the spec: `evaluate_builder_expression` restricted to
builder code of the shape `ast.Constant(value=<string literal>)`: evaluate
the string literal (with the target language's escape processing) and build
the corresponding string-constant node. -/
def evalConstBuilder (b : String) : Option STree :=
  let cs := b.toList
  let pre := "ast.Constant(value=".toList
  if cs.take pre.length = pre then
    match cs.drop pre.length with
    | q :: rest =>
      if q = '\'' ∨ q = '"' then
        match litScan rest q with
        | some raw =>
          if rest.drop (raw.length + 1) = [')'] then
            some (.strConst (unescape raw).asString)
          else none
        | none => none
      else none
    | [] => none
  else none

/-! Basic facts about the cursor primitives. -/

lemma get?_eq_drop_head? (t : Text) (p : Nat) : t.get? p = (t.drop p).head? := by
  rw [← List.get?_zero, List.get?_drop]
  rfl

lemma le_skip_ws (t : Text) (p : Nat) : p ≤ skip_ws t p := Nat.le_add_right _ _

lemma get?_lt_length {t : Text} {p : Nat} {c : Char} (h : t.get? p = some c) :
    p < t.length := by
  rcases List.get?_eq_some.mp h with ⟨hlt, _⟩
  exact hlt

lemma drop_eq_cons_of_get? {t : Text} {p : Nat} {c : Char} (h : t.get? p = some c) :
    t.drop p = c :: t.drop (p + 1) := by
  have hh := get?_eq_drop_head? t p
  rw [h] at hh
  cases hd : t.drop p with
  | nil => rw [hd] at hh; cases hh
  | cons a l =>
    rw [hd] at hh
    have ha : a = c := by simpa using hh.symm
    subst ha
    have : t.drop (p + 1) = l := by
      have := List.tail_drop t p
      rw [hd] at this
      simpa using this.symm
    rw [this]

lemma take_one_eq_iff {t : Text} {p : Nat} {c : Char} :
    (t.drop p).take 1 = [c] ↔ t.get? p = some c := by
  rw [get?_eq_drop_head?]
  cases t.drop p with
  | nil => simp
  | cons a l => simp [List.take]

lemma eat_ok_iff {t : Text} {p p' : Nat} {s : String} :
    eat t p s = .ok p' ↔ (t.drop p).take s.length = s.toList ∧ p' = p + s.length := by
  unfold eat
  split
  · rename_i hc
    constructor
    · intro h
      exact ⟨hc, (Except.ok.inj h).symm⟩
    · rintro ⟨-, rfl⟩
      rfl
  · rename_i hc
    constructor
    · intro h
      exact Except.noConfusion h
    · rintro ⟨htake, -⟩
      exact absurd htake hc

lemma eat_close_ok {t : Text} {p : Nat} {c : Char} {s : String} (hs : s.toList = [c])
    (hlen : s.length = 1) (h : t.get? p = some c) : eat t p s = .ok (p + 1) := by
  rw [eat_ok_iff, hs, hlen]
  exact ⟨take_one_eq_iff.mpr h, rfl⟩

lemma eat_close_error {t : Text} {p : Nat} {c : Char} {s : String} (hs : s.toList = [c])
    (hlen : s.length = 1) (h : t.get? p ≠ some c) : eat t p s = .error (.expected s p) := by
  unfold eat
  rw [hs, hlen]
  rw [if_neg]
  intro hc
  exact h (take_one_eq_iff.mp hc)

lemma node_match_some {t : Text} {p : Nat} {name : String} {p1 : Nat}
    (h : node_match t p = some (name, p1)) :
    (t.drop p).takeWhile isNameChar ≠ [] ∧
    t.get? (p + ((t.drop p).takeWhile isNameChar).length) = some '(' ∧
    name = ((t.drop p).takeWhile isNameChar).asString ∧
    p1 = p + ((t.drop p).takeWhile isNameChar).length + 1 := by
  simp only [node_match] at h
  split at h
  · rename_i hc
    simp only [Option.some.injEq, Prod.mk.injEq] at h
    exact ⟨hc.1, hc.2, h.1.symm, h.2.symm⟩
  · cases h

lemma field_match_some {t : Text} {p : Nat} {name : String} {p1 : Nat}
    (h : field_match t p = some (name, p1)) :
    (t.drop p).takeWhile isFieldChar ≠ [] ∧
    t.get? (p + ((t.drop p).takeWhile isFieldChar).length) = some '=' ∧
    name = ((t.drop p).takeWhile isFieldChar).asString ∧
    p1 = p + ((t.drop p).takeWhile isFieldChar).length + 1 := by
  simp only [field_match] at h
  split at h
  · rename_i hc
    simp only [Option.some.injEq, Prod.mk.injEq] at h
    exact ⟨hc.1, hc.2, h.1.symm, h.2.symm⟩
  · cases h

lemma takeWhile_ne_nil_length_pos {α} {P : α → Bool} {xs : List α}
    (h : xs.takeWhile P ≠ []) : 0 < (xs.takeWhile P).length :=
  List.length_pos.mpr h

lemma node_match_lt {t : Text} {p : Nat} {name : String} {p1 : Nat}
    (h : node_match t p = some (name, p1)) : p + 2 ≤ p1 ∧ p < t.length := by
  obtain ⟨hne, hpar, -, hp1⟩ := node_match_some h
  have hpos := takeWhile_ne_nil_length_pos hne
  have hlt := get?_lt_length hpar
  omega

lemma field_match_lt {t : Text} {p : Nat} {name : String} {p1 : Nat}
    (h : field_match t p = some (name, p1)) : p + 2 ≤ p1 ∧ p < t.length := by
  obtain ⟨hne, heq, -, hp1⟩ := field_match_some h
  have hpos := takeWhile_ne_nil_length_pos hne
  have hlt := get?_lt_length heq
  omega

lemma takeWhile_stop {α} (P : α → Bool) :
    ∀ (xs : List α) {c}, xs.get? (xs.takeWhile P).length = some c → P c = false
  | [], c => by simp
  | x :: xs, c => by
    simp only [List.takeWhile_cons]
    by_cases hx : P x = true
    · rw [if_pos hx]
      intro h
      exact takeWhile_stop P xs (by simpa using h)
    · rw [if_neg hx]
      intro h
      simp only [List.length_nil, List.get?] at h
      cases h
      simpa using hx

lemma scanStr_eq (q : Char) : ∀ xs : List Char,
    scanStr xs q = if q ∈ xs then some (xs.takeWhile (fun c => c != q)) else none
  | [] => by simp [scanStr]
  | c :: cs => by
    simp only [scanStr, List.takeWhile_cons]
    by_cases hc : c = q
    · subst hc
      simp
    · rw [scanStr_eq q cs]
      have hbc : (c != q) = true := by simpa using hc
      by_cases hm : q ∈ cs
      · simp [hc, hm, hbc, Ne.symm hc]
      · simp [hc, hm, hbc, Ne.symm hc]

/-! Claim theorems: leaf parsers. -/

/-- C5: `parse_atom` greedily consumes the maximal run of characters in
`[A-Za-z0-9_.+-]`; the lexeme is returned unchanged when it is exactly
`True`, `False` or `None`, or matches `[+-]?digits`; any other lexeme gives
`UnknownAtomError` naming the lexeme, and no other outcome is possible
(the if-chain is exhaustive).  The second conjunct characterises the
integer pattern; the third states maximality of the consumed run. -/
theorem c5_parse_atom :
    (∀ t p, parse_atom t p =
      (if ((t.drop p).takeWhile isAtomChar).asString = "True"
          ∨ ((t.drop p).takeWhile isAtomChar).asString = "False"
          ∨ ((t.drop p).takeWhile isAtomChar).asString = "None" then
        .ok (((t.drop p).takeWhile isAtomChar).asString,
             p + ((t.drop p).takeWhile isAtomChar).length)
      else if isIntLit ((t.drop p).takeWhile isAtomChar) then
        .ok (((t.drop p).takeWhile isAtomChar).asString,
             p + ((t.drop p).takeWhile isAtomChar).length)
      else .error (.unknownAtom ((t.drop p).takeWhile isAtomChar).asString))) ∧
    (∀ cs : List Char, isIntLit cs = true ↔
      ∃ sgn ds, (sgn = [] ∨ sgn = ['+'] ∨ sgn = ['-']) ∧ ds ≠ [] ∧
        (∀ c ∈ ds, c.isDigit = true) ∧ cs = sgn ++ ds) ∧
    (∀ (t : Text) (p : Nat) (c : Char),
      t.get? (p + ((t.drop p).takeWhile isAtomChar).length) = some c →
      isAtomChar c = false) := by
  refine ⟨fun t p => rfl, fun cs => ?_, fun t p c h => ?_⟩
  · constructor
    · intro h
      cases cs with
      | nil => simp [isIntLit] at h
      | cons c cs' =>
        simp only [isIntLit] at h
        by_cases hsgn : c = '+' ∨ c = '-'
        · rw [if_pos hsgn] at h
          simp only [Bool.and_eq_true, decide_eq_true_eq, List.all_eq_true] at h
          rcases hsgn with rfl | rfl
          · exact ⟨['+'], cs', Or.inr (Or.inl rfl), h.1, h.2, rfl⟩
          · exact ⟨['-'], cs', Or.inr (Or.inr rfl), h.1, h.2, rfl⟩
        · rw [if_neg hsgn] at h
          simp only [List.all_eq_true] at h
          exact ⟨[], c :: cs', Or.inl rfl, by simp, h, rfl⟩
    · rintro ⟨sgn, ds, hs, hd, hall, rfl⟩
      rcases hs with rfl | rfl | rfl
      · simp only [List.nil_append]
        cases ds with
        | nil => exact absurd rfl hd
        | cons d ds' =>
          have hdd : d.isDigit = true := hall d (by simp)
          simp only [isIntLit]
          rw [if_neg]
          · exact List.all_eq_true.mpr hall
          · rintro (rfl | rfl) <;> exact absurd hdd (by decide)
      · simp [isIntLit, hd]
        exact hall
      · simp [isIntLit, hd]
        exact hall
  · rw [← List.get?_drop] at h
    exact takeWhile_stop isAtomChar (t.drop p) h

/-- C5 witness: maximality conjunct applied at the input `1x]`. -/
theorem c5_parse_atom_witness : isAtomChar ']' = false :=
  c5_parse_atom.2.2 ("1x]".toList) 0 ']' (by decide)

/-- C6: `parse_tuple` serialises a tuple with exactly one parsed element
with a trailing comma before the closing parenthesis (`(x,)`), while tuples
with zero or two-or-more elements serialise as the comma/space-joined list
without a trailing separator. -/
theorem c6_parse_tuple (f : Nat) (t : Text) (p p2 : Nat)
    (hop : t.get? p = some '(') (hcl : t.get? p2 = some ')') :
    (∀ x, parse_tuple_items f t (p + 1) = .ok ([x], p2) →
      parse_tuple (f + 1) t p = .ok ("(" ++ x ++ ",)", p2 + 1)) ∧
    (∀ items, parse_tuple_items f t (p + 1) = .ok (items, p2) → items.length ≠ 1 →
      parse_tuple (f + 1) t p = .ok ("(" ++ joinSep ", " items ++ ")", p2 + 1)) := by
  constructor
  · intro x hitems
    simp only [parse_tuple]
    rw [eat_close_ok rfl rfl hop]
    simp only [hitems, eat_close_ok rfl rfl hcl]
    rfl
  · intro items hitems hne
    simp only [parse_tuple]
    rw [eat_close_ok rfl rfl hop]
    simp only [hitems, eat_close_ok rfl rfl hcl]
    rw [if_neg hne]

/-- C6 witness: the single-element tuple `(1,)`, the pair `(1, 2)` and the
empty tuple `()`. -/
theorem c6_parse_tuple_witness :
    parse_tuple 6 ("(1,)".toList) 0 = .ok ("(1,)", 4) ∧
    parse_tuple 6 ("(1, 2)".toList) 0 = .ok ("(1, 2)", 6) ∧
    parse_tuple 6 ("()".toList) 0 = .ok ("()", 2) :=
  ⟨(c6_parse_tuple 5 ("(1,)".toList) 0 3 rfl rfl).1 "1" (by decide),
   (c6_parse_tuple 5 ("(1, 2)".toList) 0 5 rfl rfl).2 ["1", "2"] (by decide) (by decide),
   (c6_parse_tuple 5 ("()".toList) 0 1 rfl rfl).2 [] (by decide) (by decide)⟩

/-- C4: `parse_string` performs no escape processing: it reads the raw
characters following the opening quote up to (exclusive) the first
occurrence of the matching quote character — `takeWhile (· != q)` of the
remaining text — and emits the target-language literal (`repr`) of exactly
that raw content; it raises the unterminated-string error if and only if
no matching quote occurs before the end of input. -/
theorem c4_parse_string (t : Text) (p : Nat) (q : Char)
    (hq : t.get? p = some q) (hquote : q = '\'' ∨ q = '"') :
    (q ∈ t.drop (p + 1) →
      parse_string t p =
        .ok (pyRepr (((t.drop (p + 1)).takeWhile (fun c => c != q)).asString),
             p + 1 + ((t.drop (p + 1)).takeWhile (fun c => c != q)).length + 1)) ∧
    (q ∉ t.drop (p + 1) → parse_string t p = .error .unterminated) := by
  constructor
  · intro hmem
    simp only [parse_string, hq]
    rw [if_pos hquote, scanStr_eq, if_pos hmem]
  · intro hmem
    simp only [parse_string, hq]
    rw [if_pos hquote, scanStr_eq, if_neg hmem]

/-- C4 witness: the terminated string `'ab'x` and the unterminated `'ab`. -/
theorem c4_parse_string_witness :
    parse_string ("\x27ab\x27x".toList) 0 = .ok ("\x27ab\x27", 4) ∧
    parse_string ("\x27ab".toList) 0 = .error .unterminated :=
  ⟨(c4_parse_string ("\x27ab\x27x".toList) 0 '\'' rfl (Or.inl rfl)).1 (by decide),
   (c4_parse_string ("\x27ab".toList) 0 '\'' rfl (Or.inl rfl)).2 (by decide)⟩

/-! Claim C2: behaviour after the field-list lookahead fails. -/

/-- C2 counterexample: on `Foo(1)` the upcoming text `1)` inside the field
list matches neither a field pattern nor `)`, yet `parse_node` does NOT
return normally — no successful result exists (it raises the expected-`)`
assertion from `eat`), refuting the claim that the malformed input is not
rejected. -/
theorem c2_field_stop_counterexample :
    ¬ ∃ v p', parse_node 20 ("Foo(1)".toList) 0 = .ok (v, p') := by
  rintro ⟨v, p', h⟩
  have he : parse_node 20 ("Foo(1)".toList) 0 = .error (.expected ")" 4) := rfl
  rw [he] at h
  exact Except.noConfusion h

/-- C2 amended: when, inside a node's field list, the upcoming text (after
whitespace) matches neither a field pattern nor `)`, the field-list loop
stops silently, and `parse_node` then immediately demands `)` at that very
position — which necessarily fails, so `parse_node` raises the
expected-token assertion error instead of returning normally. -/
theorem c2_field_stop_amended (f : Nat) (t : Text) (p : Nat) (name : String) (p1 : Nat)
    (hnm : node_match t p = some (name, p1))
    (hnp : t.get? (skip_ws t p1) ≠ some ')')
    (hnf : field_match t (skip_ws t p1) = none) :
    parse_node (f + 2) t p = .error (.expected ")" (skip_ws t p1)) := by
  have hfields : parse_fields (f + 1) t p1 = .ok ([], skip_ws t p1) := by
    simp only [parse_fields, if_neg hnp, hnf]
  simp only [parse_node, hnm, hfields, eat_close_error rfl rfl hnp]

/-- C2 witness: the amended behaviour at the concrete input `Foo(1)`. -/
theorem c2_field_stop_witness :
    parse_node 2 ("Foo(1)".toList) 0 = .error (.expected ")" 4) :=
  c2_field_stop_amended 0 ("Foo(1)".toList) 0 "Foo" 4 rfl (by decide) rfl

/-! Claim C3: the dispatch of `parse_value`. -/

lemma get?_some_of_takeWhile_ne {t : Text} {q : Nat} {P : Char → Bool}
    (h : (t.drop q).takeWhile P ≠ []) : ∃ c, t.get? q = some c ∧ P c = true := by
  cases hd : t.drop q with
  | nil => rw [hd] at h; simp at h
  | cons a l =>
    rw [hd, List.takeWhile_cons] at h
    by_cases hP : P a = true
    · refine ⟨a, ?_, hP⟩
      rw [get?_eq_drop_head?, hd]
      rfl
    · rw [if_neg hP] at h
      exact absurd rfl h

lemma node_match_none_of_head {t : Text} {p : Nat} {c : Char}
    (h : t.get? p = some c) (hc : isNameChar c = false) : node_match t p = none := by
  simp [node_match, drop_eq_cons_of_get? h, List.takeWhile_cons, hc]

/-- C3 counterexample: on `1()` the first non-whitespace character is the
digit `1`, which per the claim should be attempted as an atom; instead the
node production is selected (the source pattern is `[A-Za-z0-9_]+\(`, which
admits digit-leading names) and the result is `ast.1()`, not the atom
result. -/
theorem c3_dispatch_counterexample :
    parse_value 9 ("1()".toList) 0 = .ok ("ast.1()", 3) ∧
    parse_atom ("1()".toList) 0 = .ok ("1", 1) ∧
    parse_value 9 ("1()".toList) 0 ≠ parse_atom ("1()".toList) 0 :=
  ⟨rfl, rfl, by decide⟩

/-- C3 amended: `parse_value` dispatches on the first non-whitespace
position as the claim says, except that the name class before `(` is
`[A-Za-z0-9_]+` — a non-empty run of letters, digits or underscores,
digit-leading names included — rather than an identifier
`[A-Za-z_][A-Za-z0-9_]*`; only when that run-followed-by-`(` lookahead
fails do `[`, `(`, a quote, or the atom fallback apply. -/
theorem c3_dispatch (f : Nat) (t : Text) (p : Nat) :
    (((t.drop (skip_ws t p)).takeWhile isNameChar ≠ [] →
      t.get? (skip_ws t p + ((t.drop (skip_ws t p)).takeWhile isNameChar).length)
        = some '(' →
      parse_value (f + 1) t p = parse_node f t (skip_ws t p))) ∧
    (t.get? (skip_ws t p) = some '[' →
      parse_value (f + 1) t p = parse_list f t (skip_ws t p)) ∧
    (t.get? (skip_ws t p) = some '(' →
      parse_value (f + 1) t p = parse_tuple f t (skip_ws t p)) ∧
    (∀ c, t.get? (skip_ws t p) = some c → c = '\'' ∨ c = '"' →
      parse_value (f + 1) t p = parse_string t (skip_ws t p)) ∧
    (∀ c, t.get? (skip_ws t p) = some c →
      ¬((t.drop (skip_ws t p)).takeWhile isNameChar ≠ [] ∧
        t.get? (skip_ws t p + ((t.drop (skip_ws t p)).takeWhile isNameChar).length)
          = some '(') →
      c ≠ '[' → c ≠ '(' → c ≠ '\'' → c ≠ '"' →
      parse_value (f + 1) t p = parse_atom t (skip_ws t p)) ∧
    (t.get? (skip_ws t p) = none → parse_value (f + 1) t p = .error .eof) := by
  refine ⟨fun h1 h2 => ?_, fun hb => ?_, fun hb => ?_, fun c hb hq => ?_,
    fun c hb hnc h1 h2 h3 h4 => ?_, fun hb => ?_⟩
  · obtain ⟨c, hc, -⟩ := get?_some_of_takeWhile_ne h1
    have hnm : node_match t (skip_ws t p) =
        some (((t.drop (skip_ws t p)).takeWhile isNameChar).asString,
          skip_ws t p + ((t.drop (skip_ws t p)).takeWhile isNameChar).length + 1) := by
      simp only [node_match]
      rw [if_pos ⟨h1, h2⟩]
    simp only [parse_value, hc, hnm]
  · have hnm := node_match_none_of_head hb (by decide)
    simp only [parse_value, hb, hnm]
    simp
  · have hnm := node_match_none_of_head hb (by decide)
    simp only [parse_value, hb, hnm]
    simp
  · have hnm : node_match t (skip_ws t p) = none := by
      rcases hq with rfl | rfl
      · exact node_match_none_of_head hb (by decide)
      · exact node_match_none_of_head hb (by decide)
    simp only [parse_value, hb, hnm]
    rcases hq with rfl | rfl
    · simp
    · simp
  · have hnm : node_match t (skip_ws t p) = none := by
      simp only [node_match]
      rw [if_neg hnc]
    simp only [parse_value, hb, hnm]
    rw [if_neg h1, if_neg h2, if_neg (by rintro (rfl | rfl) <;> simp_all)]
  · simp only [parse_value, hb]

/-- C3 witness: the amended dispatch at the digit-leading input `1()` and
the list input `[1]`. -/
theorem c3_dispatch_witness :
    parse_value 9 ("1()".toList) 0 = parse_node 8 ("1()".toList) 0 ∧
    parse_value 9 ("[1]".toList) 0 = parse_list 8 ("[1]".toList) 0 :=
  ⟨(c3_dispatch 8 ("1()".toList) 0).1 (by decide) (by decide),
   (c3_dispatch 8 ("[1]".toList) 0).2.1 (by decide)⟩

/-! Claim C9: the callable path of `back`. -/

/-- C9: with `return_callable` requested, the evaluated tree must be a
module whose body has exactly one function-definition child: with exactly
one, the callable bearing the function's declared name is returned; with
zero or several, the fatal wrong-count error is raised and no callable is
returned; a non-module tree is likewise fatal. -/
theorem c9_back_callable :
    (∀ body n, func_defs body = [n] → back_callable (.module body) = .ok n) ∧
    (∀ body, (func_defs body).length ≠ 1 →
      back_callable (.module body) = .error .wrongFunctionCount) ∧
    back_callable .nonModuleAst = .error .notAModule ∧
    back_callable .nonAst = .error .notAnAst := by
  refine ⟨?_, ?_, rfl, rfl⟩
  · intro body n h
    have hm : exec_namespace_get body n = some n := by
      unfold exec_namespace_get
      rw [if_pos (by rw [h]; exact List.mem_singleton.mpr rfl)]
    simp only [back_callable, h, hm]
  · intro body h
    simp only [back_callable]
    cases hfd : func_defs body with
    | nil => rfl
    | cons a l =>
      cases l with
      | nil => rw [hfd] at h; simp at h
      | cons b l2 => rfl

/-- C9 witness: a single `FunctionDef` module and a two-definition module. -/
theorem c9_back_callable_witness :
    back_callable (.module [.functionDef "f", .otherStmt]) = .ok "f" ∧
    back_callable (.module [.functionDef "f", .asyncFunctionDef "g"]) =
      .error .wrongFunctionCount :=
  ⟨c9_back_callable.1 [.functionDef "f", .otherStmt] "f" rfl,
   c9_back_callable.2.1 [.functionDef "f", .asyncFunctionDef "g"] (by decide)⟩

/-! Claim C1: the round-trip property fails on escape-bearing dumps. -/

/-- C1 (code bug): the round-trip fails for string constants whose dumped
form contains escape sequences.  For the tree `Constant(value='a\nb')`
(a real newline in the string), the dump text contains the two characters
backslash-`n`; `parse_string` copies them raw and re-`repr`s them, so the
builder expression evaluates to the four-character string `a`,
backslash, `n`, `b` — a different tree whose dump also differs from the
original dump. -/
theorem c1_roundtrip_escape_bug :
    dumpTree (.strConst "a\nb") = "Constant(value=\x27a\\nb\x27)" ∧
    ASTParser.parse "Constant(value=\x27a\\nb\x27)" =
      .ok "ast.Constant(value=\x27a\\\\nb\x27)" ∧
    evalConstBuilder "ast.Constant(value=\x27a\\\\nb\x27)" = some (.strConst "a\\nb") ∧
    evalConstBuilder "ast.Constant(value=\x27a\\\\nb\x27)" ≠ some (.strConst "a\nb") ∧
    dumpTree (.strConst "a\\nb") ≠ dumpTree (.strConst "a\nb") :=
  ⟨rfl, rfl, rfl, by decide, by decide⟩

/-! Claim C8: layout produced by the formatter. -/

lemma str_append_assoc (a b c : String) : a ++ b ++ c = a ++ (b ++ c) := by
  apply String.ext
  simp only [String.data_append, List.append_assoc]

/-- Rendering described by the spec: every part on its own line indented
one unit deeper than the current level, a trailing separator after every
part (the last included), and the closing line at the current indent. -/
def lineBlock (ind : String) (l : Nat) : List String → String
  | [] => "\n" ++ strRepeat ind l
  | s :: rest => "\n" ++ strRepeat ind (l + 1) ++ s ++ "," ++ lineBlock ind l rest

lemma newline_join_eq_lineBlock (ind : String) (l : Nat) :
    ∀ (s : String) (rest : List String),
      newline_join ind (s :: rest) l = lineBlock ind l (s :: rest)
  | s, [] => by
    simp only [newline_join, joinSep, lineBlock, str_append_assoc]
  | s, r :: rest => by
    have ih := newline_join_eq_lineBlock ind l r rest
    simp only [newline_join, joinSep, lineBlock] at ih ⊢
    rw [← ih]
    simp only [str_append_assoc]

/-- C8: the formatter renders empty list and tuple literals inline as `[]`
and `()`, and renders every non-empty list, tuple, mapping, and call node
(whether its first argument is positional or, as in the parser's own
output, keyword-only) with each element or argument on its own line
indented exactly one unit deeper than the current level, a trailing comma
after every element including the last, and the closing bracket on its own
line at the current indent level. -/
theorem c8_formatter (ind : String) (l : Nat) :
    fmt ind (.list []) l = "[]" ∧
    fmt ind (.tuple []) l = "()" ∧
    (∀ e es, fmt ind (.list (e :: es)) l =
      "[" ++ lineBlock ind l (fmtList ind (e :: es) (l + 1)) ++ "]") ∧
    (∀ e es, fmt ind (.tuple (e :: es)) l =
      "(" ++ lineBlock ind l (fmtList ind (e :: es) (l + 1)) ++ ")") ∧
    (∀ k ks v vs, fmt ind (.dict (k :: ks) (v :: vs)) l =
      "\x7b" ++ lineBlock ind l (fmtPairs ind (k :: ks) (v :: vs) (l + 1)) ++ "\x7d") ∧
    (∀ g a args kws, fmt ind (.call g (a :: args) kws) l =
      fmt ind g l ++ "(" ++
        lineBlock ind l
          (fmt ind a (l + 1) :: (fmtList ind args (l + 1) ++ fmtKws ind kws (l + 1)))
        ++ ")") ∧
    (∀ g kw kws, fmt ind (.call g [] (kw :: kws)) l =
      fmt ind g l ++ "(" ++
        lineBlock ind l (fmtKws ind (kw :: kws) (l + 1)) ++ ")") := by
  refine ⟨by simp [fmt], by simp [fmt], fun e es => ?_, fun e es => ?_,
    fun k ks v vs => ?_, fun g a args kws => ?_, fun g kw kws => ?_⟩
  · simp only [fmt, List.isEmpty_cons, if_neg]
    rw [if_neg (by simp)]
    simp only [fmtList]
    rw [newline_join_eq_lineBlock]
  · simp only [fmt, List.isEmpty_cons, if_neg]
    rw [if_neg (by simp)]
    simp only [fmtList]
    rw [newline_join_eq_lineBlock]
  · rcases k with - | ke <;>
      (simp only [fmt]
       rw [if_neg (by simp)]
       simp only [fmtPairs]
       rw [newline_join_eq_lineBlock])
  · simp only [fmt, fmtList, List.cons_append]
    rw [if_neg (by simp)]
    rw [newline_join_eq_lineBlock]
  · obtain ⟨a, v⟩ := kw
    rcases a with - | aname <;>
      (simp only [fmt, fmtList, fmtKws, List.nil_append]
       rw [if_neg (by simp)]
       rw [newline_join_eq_lineBlock])

/-! Claim C7: progress — a successful parse strictly advances the cursor. -/

lemma parse_string_progress {t : Text} {p : Nat} {v : String} {p' : Nat}
    (h : parse_string t p = .ok (v, p')) : p < p' := by
  unfold parse_string at h
  split at h
  · split at h
    · split at h
      · simp only [Except.ok.injEq, Prod.mk.injEq] at h
        omega
      · exact Except.noConfusion h
    · exact Except.noConfusion h
  · exact Except.noConfusion h

lemma parse_atom_progress {t : Text} {p : Nat} {v : String} {p' : Nat}
    (h : parse_atom t p = .ok (v, p')) : p < p' := by
  cases hrun : (t.drop p).takeWhile isAtomChar with
  | nil =>
    unfold parse_atom at h
    rw [hrun, if_neg (by decide), if_neg (by decide)] at h
    exact Except.noConfusion h
  | cons a l =>
    unfold parse_atom at h
    simp only [hrun] at h
    split at h
    · simp only [Except.ok.injEq, Prod.mk.injEq] at h
      rw [List.length_cons] at h
      omega
    · split at h
      · simp only [Except.ok.injEq, Prod.mk.injEq] at h
        rw [List.length_cons] at h
        omega
      · exact Except.noConfusion h

lemma parser_progress : ∀ f : Nat,
    (∀ t p v p', parse_value f t p = .ok (v, p') → p < p') ∧
    (∀ t p vs p', parse_node f t p = .ok (vs, p') → p < p') ∧
    (∀ t p as p', parse_fields f t p = .ok (as, p') → p ≤ p') ∧
    (∀ t p v p', parse_list f t p = .ok (v, p') → p < p') ∧
    (∀ t p is p', parse_list_items f t p = .ok (is, p') → p ≤ p') ∧
    (∀ t p v p', parse_tuple f t p = .ok (v, p') → p < p') ∧
    (∀ t p is p', parse_tuple_items f t p = .ok (is, p') → p ≤ p') := by
  intro f
  induction f with
  | zero =>
    refine ⟨?_, ?_, ?_, ?_, ?_, ?_, ?_⟩ <;> intro t p x p' h <;> exact Except.noConfusion h
  | succ f ih =>
    obtain ⟨ihv, ihn, ihf, ihl, ihli, iht, ihti⟩ := ih
    have hstep_items :
        ∀ (close : Char) (rec : Nat → Text → Nat → Except Err (List String × Nat)),
          (∀ t p is p', rec f t p = .ok (is, p') → p ≤ p') →
          ∀ (t : Text) (p : Nat) (is : List String) (p' : Nat),
          (if t.get? (skip_ws t p) = some close then
              Except.ok (([] : List String), skip_ws t p)
            else
              match parse_value f t (skip_ws t p) with
              | Except.error e => Except.error e
              | Except.ok (v, p2) =>
                if t.get? (skip_ws t p2) = some ',' then
                  match rec f t (skip_ws t p2 + 1) with
                  | Except.error e => Except.error e
                  | Except.ok (rest, p4) => Except.ok (v :: rest, p4)
                else Except.ok ([v], skip_ws t p2)) = Except.ok (is, p') → p ≤ p' := by
      intro close rec ihrec t p is p' h
      split at h
      · simp only [Except.ok.injEq, Prod.mk.injEq] at h
        obtain ⟨-, rfl⟩ := h
        exact le_skip_ws t p
      · split at h
        · exact Except.noConfusion h
        · rename_i v p2 hval
          have h1 := ihv _ _ _ _ hval
          have h2 := le_skip_ws t p
          have h3 := le_skip_ws t p2
          split at h
          · split at h
            · exact Except.noConfusion h
            · rename_i rest p4 hrec
              have h4 := ihrec _ _ _ _ hrec
              simp only [Except.ok.injEq, Prod.mk.injEq] at h
              obtain ⟨-, rfl⟩ := h
              omega
          · simp only [Except.ok.injEq, Prod.mk.injEq] at h
            obtain ⟨-, rfl⟩ := h
            omega
    refine ⟨?_, ?_, ?_, ?_, ?_, ?_, ?_⟩
    · intro t p v p' h
      have hle := le_skip_ws t p
      simp only [parse_value] at h
      split at h
      · exact Except.noConfusion h
      · split at h
        · have := ihn _ _ _ _ h
          omega
        · split at h
          · have := ihl _ _ _ _ h
            omega
          · split at h
            · have := iht _ _ _ _ h
              omega
            · split at h
              · have := parse_string_progress h
                omega
              · have := parse_atom_progress h
                omega
    · intro t p vs p' h
      simp only [parse_node] at h
      split at h
      · exact Except.noConfusion h
      · rename_i x name p1 hnm
        split at h
        · exact Except.noConfusion h
        · rename_i args p2 hfs
          split at h
          · exact Except.noConfusion h
          · rename_i p3 heat
            simp only [Except.ok.injEq, Prod.mk.injEq] at h
            obtain ⟨-, rfl⟩ := h
            have h1 := (node_match_lt hnm).1
            have h2 := ihf _ _ _ _ hfs
            have h3 := (eat_ok_iff.mp heat).2
            rw [show (")" : String).length = 1 from rfl] at h3
            omega
    · intro t p as p' h
      simp only [parse_fields] at h
      split at h
      · simp only [Except.ok.injEq, Prod.mk.injEq] at h
        obtain ⟨-, rfl⟩ := h
        exact le_skip_ws t p
      · split at h
        · simp only [Except.ok.injEq, Prod.mk.injEq] at h
          obtain ⟨-, rfl⟩ := h
          exact le_skip_ws t p
        · rename_i x field p1 hfm
          split at h
          · exact Except.noConfusion h
          · rename_i v p2 hval
            have h1 := (field_match_lt hfm).1
            have h2 := ihv _ _ _ _ hval
            have h3 := le_skip_ws t p
            have h4 := le_skip_ws t p2
            split at h
            · split at h
              · exact Except.noConfusion h
              · rename_i rest p4 hrec
                have h5 := ihf _ _ _ _ hrec
                simp only [Except.ok.injEq, Prod.mk.injEq] at h
                obtain ⟨-, rfl⟩ := h
                omega
            · simp only [Except.ok.injEq, Prod.mk.injEq] at h
              obtain ⟨-, rfl⟩ := h
              omega
    · intro t p v p' h
      simp only [parse_list] at h
      split at h
      · exact Except.noConfusion h
      · rename_i p1 heat1
        split at h
        · exact Except.noConfusion h
        · rename_i items p2 hitems
          split at h
          · exact Except.noConfusion h
          · rename_i p3 heat2
            simp only [Except.ok.injEq, Prod.mk.injEq] at h
            obtain ⟨-, rfl⟩ := h
            have e1 := (eat_ok_iff.mp heat1).2
            have e2 := ihli _ _ _ _ hitems
            have e3 := (eat_ok_iff.mp heat2).2
            rw [show ("[" : String).length = 1 from rfl] at e1
            rw [show ("]" : String).length = 1 from rfl] at e3
            omega
    · intro t p is p' h
      simp only [parse_list_items] at h
      exact hstep_items ']' parse_list_items ihli t p is p' h
    · intro t p v p' h
      simp only [parse_tuple] at h
      split at h
      · exact Except.noConfusion h
      · rename_i p1 heat1
        split at h
        · exact Except.noConfusion h
        · rename_i items p2 hitems
          split at h
          · exact Except.noConfusion h
          · rename_i p3 heat2
            have e1 := (eat_ok_iff.mp heat1).2
            have e2 := ihti _ _ _ _ hitems
            have e3 := (eat_ok_iff.mp heat2).2
            rw [show ("(" : String).length = 1 from rfl] at e1
            rw [show (")" : String).length = 1 from rfl] at e3
            split at h <;>
              (simp only [Except.ok.injEq, Prod.mk.injEq] at h
               obtain ⟨-, rfl⟩ := h
               omega)
    · intro t p is p' h
      simp only [parse_tuple_items] at h
      exact hstep_items ')' parse_tuple_items ihti t p is p' h

/-! Claim C7: adequacy — sufficient fuel is never exhausted, so parsing
terminates on every input. -/

lemma parse_string_ne_fuel (t : Text) (p : Nat) : parse_string t p ≠ .error .fuel := by
  unfold parse_string
  split
  · split
    · split
      · simp
      · simp
    · simp
  · simp

lemma parse_atom_ne_fuel (t : Text) (p : Nat) : parse_atom t p ≠ .error .fuel := by
  simp only [parse_atom]
  split
  · simp
  · split <;> simp

lemma eat_ne_fuel (t : Text) (p : Nat) (s : String) : eat t p s ≠ .error .fuel := by
  unfold eat
  split
  · simp
  · simp

lemma parser_adequacy : ∀ f : Nat,
    (∀ t p, 3 * (t.length - p) + 2 ≤ f → parse_value f t p ≠ .error .fuel) ∧
    (∀ t p, 3 * (t.length - p) + 1 ≤ f → parse_node f t p ≠ .error .fuel) ∧
    (∀ t p, 3 * (t.length - p) + 3 ≤ f → parse_fields f t p ≠ .error .fuel) ∧
    (∀ t p, 3 * (t.length - p) + 1 ≤ f → parse_list f t p ≠ .error .fuel) ∧
    (∀ t p, 3 * (t.length - p) + 3 ≤ f → parse_list_items f t p ≠ .error .fuel) ∧
    (∀ t p, 3 * (t.length - p) + 1 ≤ f → parse_tuple f t p ≠ .error .fuel) ∧
    (∀ t p, 3 * (t.length - p) + 3 ≤ f → parse_tuple_items f t p ≠ .error .fuel) := by
  intro f
  induction f with
  | zero =>
    refine ⟨?_, ?_, ?_, ?_, ?_, ?_, ?_⟩ <;> intro t p hb <;> exact absurd hb (by omega)
  | succ f ih =>
    obtain ⟨ihv, ihn, ihf, ihl, ihli, iht, ihti⟩ := ih
    have hitems :
        ∀ (close : Char) (rec : Nat → Text → Nat → Except Err (List String × Nat)),
          (∀ t p, 3 * (t.length - p) + 3 ≤ f → rec f t p ≠ .error .fuel) →
          ∀ (t : Text) (p : Nat), 3 * (t.length - p) + 3 ≤ f + 1 →
          (if t.get? (skip_ws t p) = some close then
              Except.ok (([] : List String), skip_ws t p)
            else
              match parse_value f t (skip_ws t p) with
              | Except.error e => Except.error e
              | Except.ok (v, p2) =>
                if t.get? (skip_ws t p2) = some ',' then
                  match rec f t (skip_ws t p2 + 1) with
                  | Except.error e => Except.error e
                  | Except.ok (rest, p4) => Except.ok (v :: rest, p4)
                else Except.ok ([v], skip_ws t p2)) ≠ .error .fuel := by
      intro close rec ihrec t p hb
      have hq := le_skip_ws t p
      split
      · simp
      · split
        · rename_i epay heqn
          intro hgoal
          injection hgoal with h2
          subst h2
          exact ihv _ _ (by omega) heqn
        · rename_i v p2 hval
          have hprog := (parser_progress f).1 _ _ _ _ hval
          have hs2 := le_skip_ws t p2
          split
          · rename_i hcomma
            have hlt : skip_ws t p2 < t.length := get?_lt_length hcomma
            split
            · rename_i epay heqn
              intro hgoal
              injection hgoal with h2
              subst h2
              exact ihrec _ _ (by omega) heqn
            · simp
          · simp
    refine ⟨?_, ?_, ?_, ?_, ?_, ?_, ?_⟩
    · intro t p hb
      have hq := le_skip_ws t p
      simp only [parse_value]
      split
      · simp
      · split
        · exact ihn _ _ (by omega)
        · split
          · exact ihl _ _ (by omega)
          · split
            · exact iht _ _ (by omega)
            · split
              · exact parse_string_ne_fuel _ _
              · exact parse_atom_ne_fuel _ _
    · intro t p hb
      simp only [parse_node]
      split
      · simp
      · rename_i x name p1 hnm
        have hlt := node_match_lt hnm
        split
        · rename_i epay heqn
          intro hgoal
          injection hgoal with h2
          subst h2
          exact ihf _ _ (by omega) heqn
        · split
          · rename_i epay heqn
            intro hgoal
            injection hgoal with h2
            subst h2
            exact eat_ne_fuel _ _ _ heqn
          · simp
    · intro t p hb
      simp only [parse_fields]
      have hq := le_skip_ws t p
      split
      · simp
      · split
        · simp
        · rename_i x field p1 hfm
          have hlt := field_match_lt hfm
          split
          · rename_i epay heqn
            intro hgoal
            injection hgoal with h2
            subst h2
            exact ihv _ _ (by omega) heqn
          · rename_i v p2 hval
            have hprog := (parser_progress f).1 _ _ _ _ hval
            have hs2 := le_skip_ws t p2
            split
            · rename_i hcomma
              have hlt2 : skip_ws t p2 < t.length := get?_lt_length hcomma
              split
              · rename_i epay heqn
                intro hgoal
                injection hgoal with h2
                subst h2
                exact ihf _ _ (by omega) heqn
              · simp
            · simp
    · intro t p hb
      simp only [parse_list]
      split
      · rename_i epay heqn
        intro hgoal
        injection hgoal with h2
        subst h2
        exact eat_ne_fuel _ _ _ heqn
      · rename_i p1 heat
        obtain ⟨htake, hp1⟩ := eat_ok_iff.mp heat
        rw [show ("[" : String).length = 1 from rfl] at htake hp1
        have hop : t.get? p = some '[' := take_one_eq_iff.mp htake
        have hlt := get?_lt_length hop
        split
        · rename_i epay heqn
          intro hgoal
          injection hgoal with h2
          subst h2
          exact ihli _ _ (by omega) heqn
        · split
          · rename_i epay heqn
            intro hgoal
            injection hgoal with h2
            subst h2
            exact eat_ne_fuel _ _ _ heqn
          · simp
    · intro t p hb
      simp only [parse_list_items]
      exact hitems ']' parse_list_items ihli t p hb
    · intro t p hb
      simp only [parse_tuple]
      split
      · rename_i epay heqn
        intro hgoal
        injection hgoal with h2
        subst h2
        exact eat_ne_fuel _ _ _ heqn
      · rename_i p1 heat
        obtain ⟨htake, hp1⟩ := eat_ok_iff.mp heat
        rw [show ("(" : String).length = 1 from rfl] at htake hp1
        have hop : t.get? p = some '(' := take_one_eq_iff.mp htake
        have hlt := get?_lt_length hop
        split
        · rename_i epay heqn
          intro hgoal
          injection hgoal with h2
          subst h2
          exact ihti _ _ (by omega) heqn
        · split
          · rename_i epay heqn
            intro hgoal
            injection hgoal with h2
            subst h2
            exact eat_ne_fuel _ _ _ heqn
          · split
            · simp
            · simp
    · intro t p hb
      simp only [parse_tuple_items]
      exact hitems ')' parse_tuple_items ihti t p hb

/-- C7: parsing terminates on every input — fuel `3*(remaining length)+2`
is never exhausted, because every successful recursive call to
`parse_value` consumes at least one character of the input before
returning (the progress conjunct); recursion is therefore well founded and
no parse loops forever. -/
theorem c7_termination (t : Text) (p : Nat) (f : Nat) :
    (3 * (t.length - p) + 2 ≤ f → parse_value f t p ≠ .error .fuel) ∧
    (∀ v p', parse_value f t p = .ok (v, p') → p < p') :=
  ⟨fun hb => (parser_adequacy f).1 t p hb,
   fun v p' h => (parser_progress f).1 t p v p' h⟩

/-- C7 witness: termination and progress at the concrete input `[1]`. -/
theorem c7_termination_witness :
    parse_value 11 ("[1]".toList) 0 ≠ .error .fuel ∧ (0 : Nat) < 3 :=
  ⟨(c7_termination ("[1]".toList) 0 11).1 (by decide),
   (c7_termination ("[1]".toList) 0 11).2 "[1]" 3 (by decide)⟩

/-! Claim C10: effect of trailing text on an already-successful parse. -/

/-- Condition on appended text under which a completed parse is unaffected:
the appended text must not begin with an atom character (which the final
lexeme of an atom-terminated value would absorb) nor with `(` (which could
turn a name run ending at the end of input into a node match). -/
def extOk (u : Text) : Prop :=
  ∀ c, u.head? = some c → isAtomChar c = false ∧ c ≠ '('

lemma isAtomChar_of_isNameChar {c : Char} (h : isNameChar c = true) :
    isAtomChar c = true := by
  simp only [isNameChar, Bool.or_eq_true] at h
  simp only [isAtomChar, Bool.or_eq_true]
  tauto

lemma isAtomChar_of_isFieldChar {c : Char} (h : isFieldChar c = true) :
    isAtomChar c = true := by
  simp only [isFieldChar, Bool.or_eq_true] at h
  simp only [isAtomChar, Bool.or_eq_true]
  tauto

lemma takeWhile_extOk_nil {u : Text} (hu : extOk u) {P : Char → Bool}
    (hP : ∀ c, P c = true → isAtomChar c = true) : u.takeWhile P = [] := by
  cases u with
  | nil => rfl
  | cons c cs =>
    rw [List.takeWhile_cons, if_neg]
    intro hPc
    have h1 := hP c hPc
    have h2 := (hu c rfl).1
    rw [h1] at h2
    exact Bool.noConfusion h2

lemma countWs_append : ∀ (xs ys : List Char),
    countWs (xs ++ ys) =
      if countWs xs = xs.length then xs.length + countWs ys else countWs xs
  | [], ys => by simp [countWs]
  | x :: xs, ys => by
    have hrec := countWs_append xs ys
    by_cases hx : x.isWhitespace
    · simp only [List.cons_append, countWs, if_pos hx, List.length_cons,
        List.append_eq]
      rw [hrec]
      by_cases hfull : countWs xs = xs.length
      · rw [if_pos hfull, if_pos (by omega)]
        omega
      · rw [if_neg hfull, if_neg (by omega)]
    · simp only [List.cons_append, countWs, if_neg hx, List.length_cons]
      rw [if_neg (by omega)]

lemma skip_ws_append {t : Text} (u : Text) {p : Nat} {c : Char}
    (h : t.get? (skip_ws t p) = some c) : skip_ws (t ++ u) p = skip_ws t p := by
  have hlt : skip_ws t p < t.length := get?_lt_length h
  have hple : p ≤ t.length := le_trans (le_skip_ws t p) (le_of_lt hlt)
  unfold skip_ws at hlt ⊢
  rw [List.drop_append_of_le_length hple, countWs_append]
  rw [if_neg]
  intro hfull
  rw [List.length_drop] at hfull
  omega

lemma skip_ws_lt_of_get? {t : Text} {p : Nat} {c : Char}
    (h : t.get? (skip_ws t p) = some c) : skip_ws t p < t.length :=
  get?_lt_length h

lemma takeWhile_length_le {P : Char → Bool} :
    ∀ xs : List Char, (xs.takeWhile P).length ≤ xs.length
  | [] => le_refl _
  | x :: xs => by
    rw [List.takeWhile_cons]
    split
    · rw [List.length_cons, List.length_cons]
      have := takeWhile_length_le (P := P) xs
      omega
    · simp

lemma takeWhile_length_eq {P : Char → Bool} :
    ∀ xs : List Char, (xs.takeWhile P).length = xs.length → xs.takeWhile P = xs
  | [], _ => rfl
  | x :: xs, h => by
    by_cases hx : P x = true
    · rw [List.takeWhile_cons, if_pos hx] at h ⊢
      rw [List.length_cons, List.length_cons] at h
      rw [takeWhile_length_eq xs (by omega)]
    · rw [List.takeWhile_cons, if_neg hx] at h
      rw [List.length_nil, List.length_cons] at h
      omega

lemma node_match_append_some {t : Text} (u : Text) {p : Nat} {name : String} {p1 : Nat}
    (h : node_match t p = some (name, p1)) : node_match (t ++ u) p = some (name, p1) := by
  obtain ⟨hne, hpar, hname, hp1⟩ := node_match_some h
  have hlt := get?_lt_length hpar
  have hple : p ≤ t.length := by omega
  have hrun : ((t ++ u).drop p).takeWhile isNameChar = (t.drop p).takeWhile isNameChar := by
    rw [List.drop_append_of_le_length hple, List.takeWhile_append]
    rw [if_neg]
    intro hfull
    rw [List.length_drop] at hfull
    omega
  subst hname hp1
  simp only [node_match, hrun]
  rw [if_pos ⟨hne, by rw [List.get?_append hlt]; exact hpar⟩]

lemma field_match_append_some {t : Text} (u : Text) {p : Nat} {name : String} {p1 : Nat}
    (h : field_match t p = some (name, p1)) : field_match (t ++ u) p = some (name, p1) := by
  obtain ⟨hne, hpar, hname, hp1⟩ := field_match_some h
  have hlt := get?_lt_length hpar
  have hple : p ≤ t.length := by omega
  have hrun : ((t ++ u).drop p).takeWhile isFieldChar = (t.drop p).takeWhile isFieldChar := by
    rw [List.drop_append_of_le_length hple, List.takeWhile_append]
    rw [if_neg]
    intro hfull
    rw [List.length_drop] at hfull
    omega
  subst hname hp1
  simp only [field_match, hrun]
  rw [if_pos ⟨hne, by rw [List.get?_append hlt]; exact hpar⟩]

lemma node_match_append_none {t u : Text} {p : Nat}
    (hu : extOk u) (hple : p ≤ t.length)
    (h : node_match t p = none) : node_match (t ++ u) p = none := by
  have hwu : u.takeWhile isNameChar = [] :=
    takeWhile_extOk_nil hu (fun c hc => isAtomChar_of_isNameChar hc)
  simp only [node_match] at h ⊢
  rw [List.drop_append_of_le_length hple, List.takeWhile_append]
  by_cases hfull : ((t.drop p).takeWhile isNameChar).length = (t.drop p).length
  · rw [if_pos hfull, hwu, List.append_nil]
    rw [if_neg]
    rintro ⟨-, hpar⟩
    rw [List.length_drop] at hpar
    rw [List.get?_append_right (by omega)] at hpar
    have hidx : p + (t.length - p) - t.length = 0 := by omega
    rw [hidx, List.get?_zero] at hpar
    rcases hu '(' hpar with ⟨-, habs⟩
    exact habs rfl
  · rw [if_neg hfull]
    rw [if_neg]
    rintro ⟨hne, hpar⟩
    have hlen : p + ((t.drop p).takeWhile isNameChar).length < t.length := by
      have h1 := takeWhile_length_le (P := isNameChar) (t.drop p)
      rw [List.length_drop] at hfull h1
      omega
    rw [List.get?_append hlen] at hpar
    rw [if_pos ⟨hne, hpar⟩] at h
    exact Option.noConfusion h

lemma parse_atom_append {t u : Text} {p : Nat} {r : String × Nat}
    (hu : extOk u) (h : parse_atom t p = .ok r) : parse_atom (t ++ u) p = .ok r := by
  have hrun_ne : (t.drop p).takeWhile isAtomChar ≠ [] := by
    intro hnil
    simp only [parse_atom, hnil] at h
    rw [if_neg (by decide), if_neg (by decide)] at h
    exact Except.noConfusion h
  have hne2 : t.drop p ≠ [] := by
    intro hd
    rw [hd] at hrun_ne
    exact hrun_ne rfl
  have hple : p ≤ t.length := by
    by_contra hgt
    push_neg at hgt
    exact hne2 (List.drop_eq_nil_iff_le.mpr (by omega))
  have hwu : u.takeWhile isAtomChar = [] := takeWhile_extOk_nil hu (fun c hc => hc)
  have hrun : ((t ++ u).drop p).takeWhile isAtomChar = (t.drop p).takeWhile isAtomChar := by
    rw [List.drop_append_of_le_length hple, List.takeWhile_append]
    by_cases hfull : ((t.drop p).takeWhile isAtomChar).length = (t.drop p).length
    · rw [if_pos hfull, hwu, List.append_nil, takeWhile_length_eq _ hfull]
    · rw [if_neg hfull]
  simp only [parse_atom] at h ⊢
  rw [hrun]
  exact h

lemma scanStr_append_some {q : Char} : ∀ {xs : List Char} {content : List Char}
    (u : List Char), scanStr xs q = some content → scanStr (xs ++ u) q = some content := by
  intro xs
  induction xs with
  | nil => intro content u h; exact Option.noConfusion h
  | cons c cs ih =>
    intro content u h
    simp only [List.cons_append, scanStr, List.append_eq] at h ⊢
    by_cases hc : c = q
    · rw [if_pos hc] at h ⊢
      exact h
    · rw [if_neg hc] at h ⊢
      cases hs : scanStr cs q with
      | none => rw [hs] at h; exact Option.noConfusion h
      | some c2 =>
        rw [hs] at h
        rw [ih u hs]
        exact h

lemma parse_string_append {t : Text} (u : Text) {p : Nat} {r : String × Nat}
    (h : parse_string t p = .ok r) : parse_string (t ++ u) p = .ok r := by
  cases hq : t.get? p with
  | none =>
    simp only [parse_string, hq] at h
    exact Except.noConfusion h
  | some q =>
    have hlt := get?_lt_length hq
    have hq2 : (t ++ u).get? p = some q := by rw [List.get?_append hlt]; exact hq
    simp only [parse_string, hq, hq2] at h ⊢
    by_cases hqq : q = '\'' ∨ q = '"'
    · rw [if_pos hqq] at h ⊢
      cases hs : scanStr (t.drop (p + 1)) q with
      | none => rw [hs] at h; exact Except.noConfusion h
      | some content =>
        rw [hs] at h
        have hdr : (t ++ u).drop (p + 1) = t.drop (p + 1) ++ u :=
          List.drop_append_of_le_length (by omega)
        rw [hdr, scanStr_append_some u hs]
        exact h
    · rw [if_neg hqq] at h
      exact Except.noConfusion h

lemma eat_append_ok {t : Text} (u : Text) {p p' : Nat} {s : String}
    (h : eat t p s = .ok p') : eat (t ++ u) p s = .ok p' := by
  obtain ⟨htake, hp'⟩ := eat_ok_iff.mp h
  rw [eat_ok_iff]
  refine ⟨?_, hp'⟩
  rcases Nat.eq_zero_or_pos s.length with hz | hz
  · rw [hz] at htake ⊢
    simpa using htake
  · have hlen : s.toList.length = s.length := rfl
    have hle : s.length ≤ (t.drop p).length := by
      have hc := congrArg List.length htake
      rw [List.length_take, hlen] at hc
      rcases Nat.le_total s.length ((t.drop p).length) with hh | hh
      · exact hh
      · rw [Nat.min_eq_right hh] at hc
        omega
    have hple : p ≤ t.length := by
      rw [List.length_drop] at hle
      omega
    rw [List.drop_append_of_le_length hple, List.take_append_of_le_length hle]
    exact htake

lemma countWs_drop_countWs : ∀ xs : List Char, countWs (xs.drop (countWs xs)) = 0
  | [] => rfl
  | x :: xs => by
    by_cases hx : x.isWhitespace
    · have h1 : countWs (x :: xs) = countWs xs + 1 := by simp [countWs, hx]
      rw [h1, List.drop_succ_cons]
      exact countWs_drop_countWs xs
    · have h1 : countWs (x :: xs) = 0 := by simp [countWs, hx]
      rw [h1, List.drop_zero, h1]

lemma skip_ws_idem (t : Text) (p : Nat) : skip_ws t (skip_ws t p) = skip_ws t p := by
  unfold skip_ws
  have hd : t.drop (p + countWs (t.drop p)) = (t.drop p).drop (countWs (t.drop p)) := by
    rw [List.drop_drop]
    try congr 1
    try omega
  rw [hd, countWs_drop_countWs]
  try omega

lemma parse_value_ok_get? {f : Nat} {t : Text} {p : Nat} {r : String × Nat}
    (h : parse_value f t p = .ok r) : ∃ c, t.get? (skip_ws t p) = some c := by
  cases f with
  | zero => exact Except.noConfusion h
  | succ f =>
    simp only [parse_value] at h
    by_cases hnone : t.get? (skip_ws t p) = none
    · rw [hnone] at h
      exact Except.noConfusion h
    · exact Option.ne_none_iff_exists'.mp hnone

/-- Locality of the parser: a parse that succeeded on `t` gives the same
result on `t ++ u` (at any fuel at least as large), provided `u` does not
begin with an atom character or `(`.  The loop lemmas additionally record
that the loop stopped on its closing delimiter, which holds whenever the
surrounding production succeeded. -/
lemma parser_append (t u : Text) (hu : extOk u) : ∀ f f' : Nat, f ≤ f' →
    (∀ p v p', parse_value f t p = .ok (v, p') →
        parse_value f' (t ++ u) p = .ok (v, p')) ∧
    (∀ p v p', parse_node f t p = .ok (v, p') →
        parse_node f' (t ++ u) p = .ok (v, p')) ∧
    (∀ p as p', parse_fields f t p = .ok (as, p') → t.get? p' = some ')' →
        parse_fields f' (t ++ u) p = .ok (as, p')) ∧
    (∀ p v p', parse_list f t p = .ok (v, p') →
        parse_list f' (t ++ u) p = .ok (v, p')) ∧
    (∀ p is p', parse_list_items f t p = .ok (is, p') → t.get? p' = some ']' →
        parse_list_items f' (t ++ u) p = .ok (is, p')) ∧
    (∀ p v p', parse_tuple f t p = .ok (v, p') →
        parse_tuple f' (t ++ u) p = .ok (v, p')) ∧
    (∀ p is p', parse_tuple_items f t p = .ok (is, p') → t.get? p' = some ')' →
        parse_tuple_items f' (t ++ u) p = .ok (is, p')) := by
  intro f
  induction f with
  | zero =>
    intro f' hf'
    refine ⟨?_, ?_, ?_, ?_, ?_, ?_, ?_⟩ <;> intro p x p' h <;> exact Except.noConfusion h
  | succ g ih =>
    intro f' hf'
    obtain ⟨g', rfl⟩ : ∃ g'', f' = g'' + 1 := ⟨f' - 1, by omega⟩
    have hg : g ≤ g' := by omega
    obtain ⟨ihv, ihn, ihf, ihl, ihli, iht, ihti⟩ := ih g' hg
    have hitems :
        ∀ (close : Char)
          (recT : Nat → Text → Nat → Except Err (List String × Nat)),
          (∀ p is p', recT g t p = .ok (is, p') → t.get? p' = some close →
              recT g' (t ++ u) p = .ok (is, p')) →
          ∀ (p : Nat) (is : List String) (p' : Nat),
          (if t.get? (skip_ws t p) = some close then
              Except.ok (([] : List String), skip_ws t p)
            else
              match parse_value g t (skip_ws t p) with
              | Except.error e => Except.error e
              | Except.ok (v, p2) =>
                if t.get? (skip_ws t p2) = some ',' then
                  match recT g t (skip_ws t p2 + 1) with
                  | Except.error e => Except.error e
                  | Except.ok (rest, p4) => Except.ok (v :: rest, p4)
                else Except.ok ([v], skip_ws t p2)) = Except.ok (is, p') →
          t.get? p' = some close →
          (if (t ++ u).get? (skip_ws (t ++ u) p) = some close then
              Except.ok (([] : List String), skip_ws (t ++ u) p)
            else
              match parse_value g' (t ++ u) (skip_ws (t ++ u) p) with
              | Except.error e => Except.error e
              | Except.ok (v, p2) =>
                if (t ++ u).get? (skip_ws (t ++ u) p2) = some ',' then
                  match recT g' (t ++ u) (skip_ws (t ++ u) p2 + 1) with
                  | Except.error e => Except.error e
                  | Except.ok (rest, p4) => Except.ok (v :: rest, p4)
                else Except.ok ([v], skip_ws (t ++ u) p2)) = Except.ok (is, p') := by
      intro close recT ihrec p is p' h hr
      by_cases hcl : t.get? (skip_ws t p) = some close
      · rw [if_pos hcl] at h
        have hsw := skip_ws_append u hcl
        have hlt := get?_lt_length hcl
        rw [hsw, if_pos (by rw [List.get?_append hlt]; exact hcl)]
        exact h
      · rw [if_neg hcl] at h
        cases hval : parse_value g t (skip_ws t p) with
        | error e =>
          simp only [hval] at h
          exact Except.noConfusion h
        | ok vp =>
          obtain ⟨v, p2⟩ := vp
          simp only [hval] at h
          obtain ⟨c0, hc0⟩ := parse_value_ok_get? hval
          rw [skip_ws_idem] at hc0
          have hsw := skip_ws_append u hc0
          have hqlt := get?_lt_length hc0
          rw [hsw, if_neg (by rw [List.get?_append hqlt]; exact hcl)]
          have hval2 := ihv (skip_ws t p) v p2 hval
          simp only [hval2]
          by_cases hcm : t.get? (skip_ws t p2) = some ','
          · rw [if_pos hcm] at h
            have hsw2 := skip_ws_append u hcm
            have hlt2 := get?_lt_length hcm
            rw [hsw2, if_pos (by rw [List.get?_append hlt2]; exact hcm)]
            cases hrec : recT g t (skip_ws t p2 + 1) with
            | error e =>
              simp only [hrec] at h
              exact Except.noConfusion h
            | ok rp =>
              obtain ⟨rest, p4⟩ := rp
              simp only [hrec] at h
              simp only [Except.ok.injEq, Prod.mk.injEq] at h
              obtain ⟨h1, h2⟩ := h
              simp only [ihrec _ _ _ hrec (by rw [h2]; exact hr)]
              rw [h1, h2]
          · rw [if_neg hcm] at h
            simp only [Except.ok.injEq, Prod.mk.injEq] at h
            obtain ⟨h1, h2⟩ := h
            have hrq : t.get? (skip_ws t p2) = some close := by rw [h2]; exact hr
            have hsw2 := skip_ws_append u hrq
            have hlt2 := get?_lt_length hrq
            rw [hsw2, if_neg (by rw [List.get?_append hlt2]; exact hcm)]
            rw [h1, h2]
    refine ⟨?_, ?_, ?_, ?_, ?_, ?_, ?_⟩
    · intro p v p' h
      simp only [parse_value] at h ⊢
      cases hget : t.get? (skip_ws t p) with
      | none =>
        simp only [hget] at h
        exact Except.noConfusion h
      | some ch =>
        simp only [hget] at h
        have hsw := skip_ws_append u hget
        have hqlt := get?_lt_length hget
        have hget2 : (t ++ u).get? (skip_ws t p) = some ch := by
          rw [List.get?_append hqlt]
          exact hget
        rw [hsw]
        simp only [hget2]
        cases hnm : node_match t (skip_ws t p) with
        | some r =>
          obtain ⟨name, p1⟩ := r
          simp only [hnm] at h
          simp only [node_match_append_some u hnm]
          exact ihn _ _ _ h
        | none =>
          simp only [hnm] at h
          simp only [node_match_append_none hu (le_of_lt hqlt) hnm]
          by_cases h1 : ch = '['
          · rw [if_pos h1] at h ⊢
            exact ihl _ _ _ h
          · rw [if_neg h1] at h ⊢
            by_cases h2 : ch = '('
            · rw [if_pos h2] at h ⊢
              exact iht _ _ _ h
            · rw [if_neg h2] at h ⊢
              by_cases h3 : ch = '\'' ∨ ch = '"'
              · rw [if_pos h3] at h ⊢
                exact parse_string_append u h
              · rw [if_neg h3] at h ⊢
                exact parse_atom_append hu h
    · intro p v p' h
      simp only [parse_node] at h ⊢
      cases hnm : node_match t p with
      | none =>
        simp only [hnm] at h
        exact Except.noConfusion h
      | some r =>
        obtain ⟨name, p1⟩ := r
        simp only [hnm] at h
        cases hfs : parse_fields g t p1 with
        | error e =>
          simp only [hfs] at h
          exact Except.noConfusion h
        | ok ap =>
          obtain ⟨args, p2⟩ := ap
          simp only [hfs] at h
          cases heat : eat t p2 ")" with
          | error e =>
            simp only [heat] at h
            exact Except.noConfusion h
          | ok p3 =>
            simp only [heat] at h
            obtain ⟨htake, hp3⟩ := eat_ok_iff.mp heat
            rw [show (")" : String).length = 1 from rfl] at htake
            have hcl : t.get? p2 = some ')' := take_one_eq_iff.mp htake
            simp only [node_match_append_some u hnm, ihf p1 args p2 hfs hcl,
              eat_append_ok u heat]
            exact h
    · intro p as p' h hr
      simp only [parse_fields] at h ⊢
      by_cases hcl : t.get? (skip_ws t p) = some ')'
      · rw [if_pos hcl] at h
        have hsw := skip_ws_append u hcl
        have hlt := get?_lt_length hcl
        rw [hsw, if_pos (by rw [List.get?_append hlt]; exact hcl)]
        exact h
      · rw [if_neg hcl] at h
        cases hfm : field_match t (skip_ws t p) with
        | none =>
          simp only [hfm] at h
          simp only [Except.ok.injEq, Prod.mk.injEq] at h
          obtain ⟨-, h2⟩ := h
          rw [h2] at hcl
          exact absurd hr hcl
        | some r =>
          obtain ⟨field, p1⟩ := r
          simp only [hfm] at h
          obtain ⟨hne, -, -, -⟩ := field_match_some hfm
          obtain ⟨c0, hc0, -⟩ := get?_some_of_takeWhile_ne hne
          have hsw := skip_ws_append u hc0
          have hqlt := get?_lt_length hc0
          rw [hsw, if_neg (by rw [List.get?_append hqlt]; exact hcl)]
          simp only [field_match_append_some u hfm]
          cases hval : parse_value g t p1 with
          | error e =>
            simp only [hval] at h
            exact Except.noConfusion h
          | ok vp =>
            obtain ⟨v, p2⟩ := vp
            simp only [hval] at h
            simp only [ihv p1 v p2 hval]
            by_cases hcm : t.get? (skip_ws t p2) = some ','
            · rw [if_pos hcm] at h
              have hsw2 := skip_ws_append u hcm
              have hlt2 := get?_lt_length hcm
              rw [hsw2, if_pos (by rw [List.get?_append hlt2]; exact hcm)]
              cases hrec : parse_fields g t (skip_ws t p2 + 1) with
              | error e =>
                simp only [hrec] at h
                exact Except.noConfusion h
              | ok rp =>
                obtain ⟨rest, p4⟩ := rp
                simp only [hrec] at h
                simp only [Except.ok.injEq, Prod.mk.injEq] at h
                obtain ⟨h1, h2⟩ := h
                simp only [ihf _ _ _ hrec (by rw [h2]; exact hr)]
                rw [h1, h2]
            · rw [if_neg hcm] at h
              simp only [Except.ok.injEq, Prod.mk.injEq] at h
              obtain ⟨h1, h2⟩ := h
              have hrq : t.get? (skip_ws t p2) = some ')' := by rw [h2]; exact hr
              have hsw2 := skip_ws_append u hrq
              have hlt2 := get?_lt_length hrq
              rw [hsw2, if_neg (by rw [List.get?_append hlt2]; exact hcm)]
              rw [h1, h2]
    · intro p v p' h
      simp only [parse_list] at h ⊢
      cases heat : eat t p "[" with
      | error e =>
        simp only [heat] at h
        exact Except.noConfusion h
      | ok p1 =>
        simp only [heat] at h
        cases hit : parse_list_items g t p1 with
        | error e =>
          simp only [hit] at h
          exact Except.noConfusion h
        | ok ip =>
          obtain ⟨items, p2⟩ := ip
          simp only [hit] at h
          cases heat2 : eat t p2 "]" with
          | error e =>
            simp only [heat2] at h
            exact Except.noConfusion h
          | ok p3 =>
            simp only [heat2] at h
            obtain ⟨htake2, hp3⟩ := eat_ok_iff.mp heat2
            rw [show ("]" : String).length = 1 from rfl] at htake2
            have hcl : t.get? p2 = some ']' := take_one_eq_iff.mp htake2
            simp only [eat_append_ok u heat, ihli p1 items p2 hit hcl,
              eat_append_ok u heat2]
            exact h
    · intro p is p' h hr
      simp only [parse_list_items] at h ⊢
      exact hitems ']' parse_list_items ihli p is p' h hr
    · intro p v p' h
      simp only [parse_tuple] at h ⊢
      cases heat : eat t p "(" with
      | error e =>
        simp only [heat] at h
        exact Except.noConfusion h
      | ok p1 =>
        simp only [heat] at h
        cases hit : parse_tuple_items g t p1 with
        | error e =>
          simp only [hit] at h
          exact Except.noConfusion h
        | ok ip =>
          obtain ⟨items, p2⟩ := ip
          simp only [hit] at h
          cases heat2 : eat t p2 ")" with
          | error e =>
            simp only [heat2] at h
            exact Except.noConfusion h
          | ok p3 =>
            simp only [heat2] at h
            obtain ⟨htake2, hp3⟩ := eat_ok_iff.mp heat2
            rw [show (")" : String).length = 1 from rfl] at htake2
            have hcl : t.get? p2 = some ')' := take_one_eq_iff.mp htake2
            simp only [eat_append_ok u heat, ihti p1 items p2 hit hcl,
              eat_append_ok u heat2]
            exact h
    · intro p is p' h hr
      simp only [parse_tuple_items] at h ⊢
      exact hitems ')' parse_tuple_items ihti p is p' h hr

/-- C10 counterexample: the input `1x` begins with the complete well-formed
value `1` followed by the additional text `x`, yet parsing fails with an
unknown-atom error instead of returning the leading value's builder
expression — the atom lexeme absorbs the trailing character, refuting the
claim for arbitrary trailing text. -/
theorem c10_trailing_counterexample :
    ASTParser.parse "1" = .ok "1" ∧
    ASTParser.parse "1x" = .error (.unknownAtom "1x") :=
  ⟨rfl, rfl⟩

/-- C10 amended: no end-of-input check is performed after the top-level
value — `parse` returns `parse_value`'s result as is, and any trailing text
that cannot extend the final lexeme (it must not begin with an atom
character `[A-Za-z0-9_.+-]`, which an atom-terminated value would absorb,
nor with `(`, which could extend a trailing name run into a node match) is
silently ignored: the parse of the extended input succeeds with the very
same builder expression and end position. -/
theorem c10_trailing_ignored (s u v : String) (hu : extOk u.toList) :
    (ASTParser.parse s = .ok v → ASTParser.parse (s ++ u) = .ok v) ∧
    (∀ f f' p', f ≤ f' → parse_value f s.toList 0 = .ok (v, p') →
      parse_value f' (s.toList ++ u.toList) 0 = .ok (v, p')) := by
  constructor
  · intro h
    cases hpv : parse_value (3 * s.length + 3) s.toList 0 with
    | error e =>
      simp only [ASTParser.parse, hpv] at h
      exact Except.noConfusion h
    | ok r =>
      obtain ⟨code, p'⟩ := r
      simp only [ASTParser.parse, hpv] at h
      have hv : code = v := Except.ok.inj h
      subst hv
      have hlen : (s ++ u).length = s.length + u.length := String.length_append s u
      have hdata : (s ++ u).toList = s.toList ++ u.toList := String.data_append s u
      have h2 := (parser_append s.toList u.toList hu (3 * s.length + 3)
        (3 * (s ++ u).length + 3) (by rw [hlen]; omega)).1 0 code p' hpv
      simp only [ASTParser.parse, hdata, h2]
  · intro f f' p' hle hpv
    exact (parser_append s.toList u.toList hu f f' hle).1 0 v p' hpv

/-- C10 witness: trailing text after a delimiter-terminated value is
ignored by `parse`. -/
theorem c10_trailing_ignored_witness :
    ASTParser.parse ("Name(id=\x27x\x27)" ++ " junk") = .ok "ast.Name(id=\x27x\x27)" :=
  (c10_trailing_ignored "Name(id=\x27x\x27)" " junk" "ast.Name(id=\x27x\x27)"
    (by intro c hc; simp at hc; subst hc; decide)).1 rfl

end Asttab
